import Mathlib

/-
Shallow embedding of the MSR backend of raplcap (src/msr/raplcap-msr.c) and
proofs about it.

Modelling conventions, used throughout:
- C `uint64_t` values are `Nat` reduced modulo `2 ^ 64` exactly where the C
  arithmetic wraps; `int` intermediates are flagged where their narrower
  width matters.
- C `double` values are modelled as exact rationals (`ℚ`); `pow(2.0, y)`
  with a small nonnegative integral `y` and the decode formulas are exact in
  this model, `log2` and the literal `0.1` are modelled by their exact
  real-number values.
- Fallible operations return `Option`.
-/

namespace Raplcap

/-- Word modulus of the C type `uint64_t`. -/
def M64 : Nat := 2 ^ 64

/-- Embedding of the C static `get_bits(msrval, first, last)`
(`(msrval >> first) & ((1 << (last - first + 1)) - 1)`), at the mathematical
mask value `2 ^ width - 1`.  Every call site in raplcap-msr.c uses a field of
width at most 15, where this coincides with the C expression; `get_bitsC`
below additionally tracks the widths at which the C mask computation (whose
`1` has type `int`) is defined at all. -/
def get_bits (msrval first last : Nat) : Nat :=
  (msrval >>> first) &&& (2 ^ (last - first + 1) - 1)

/-- Embedding of the C static `replace_bits(msrval, data, first, last)`:
`mask = (((uint64_t)1 << (last - first + 1)) - 1) << first;`
`data <<= first; return (msrval & ~mask) | (data & mask);`
with the `uint64_t` shifts and the complement taken modulo `2 ^ 64`
(`~mask` is `mask ^^^ (2 ^ 64 - 1)`). -/
def replace_bits (msrval data first last : Nat) : Nat :=
  let mask := ((2 ^ (last - first + 1) - 1) <<< first) % M64
  (msrval &&& (mask ^^^ (M64 - 1))) ||| (((data <<< first) % M64) &&& mask)

/-- The C `int`-typed expression `1 << w` as it appears in `get_bits`:
per C11 6.5.7 the shift is undefined once `1 × 2^w` is no longer
representable in a 32-bit `int`, i.e. for `w ≥ 31`; `none` records that the
source expression has no defined value there. -/
def shl1_int (w : Nat) : Option Nat :=
  if w ≤ 30 then some (2 ^ w) else none

/-- The C `uint64_t`-typed expression `(uint64_t)1 << w` as it appears in
`replace_bits`: defined for shift amounts below the 64-bit width, undefined
(C11 6.5.7) for `w ≥ 64`. -/
def shl1_u64 (w : Nat) : Option Nat :=
  if w ≤ 63 then some (2 ^ w) else none

/-- Definedness-tracking embedding of `get_bits`: the mask
`(1 << (last - first + 1)) - 1` is computed in `int`, so the function has a
defined result only for field widths of at most 30 bits. -/
def get_bitsC (msrval first last : Nat) : Option Nat :=
  (shl1_int (last - first + 1)).map fun p => (msrval >>> first) &&& (p - 1)

/-- Definedness-tracking embedding of `replace_bits`: the mask is computed in
`uint64_t`, so the function has a defined result for field widths of at most
63 bits (a full 64-bit range shifts by 64, which C leaves undefined). -/
def replace_bitsC (msrval data first last : Nat) : Option Nat :=
  (shl1_u64 (last - first + 1)).map fun p =>
    let mask := ((p - 1) <<< first) % M64
    (msrval &&& (mask ^^^ (M64 - 1))) ||| (((data <<< first) % M64) &&& mask)

/-- The five RAPL zones of raplcap.h, as dispatched on in raplcap-msr.c. -/
inductive raplcap_zone where
  | PACKAGE
  | CORE
  | UNCORE
  | DRAM
  | PSYS
deriving DecidableEq

/-- A power limit (raplcap.h): a time window in seconds and a power bound in
Watts; C doubles modelled as exact rationals. -/
structure raplcap_limit where
  seconds : ℚ
  watts : ℚ
deriving DecidableEq

/-- The unit-scale part of the C struct raplcap_msr (the per-socket file
descriptors are modelled separately, in the teardown model below). -/
structure raplcap_msr where
  power_units : ℚ
  time_units : ℚ

/-- Embedding of the C static `is_pkg_platform_enabled`:
`get_bits(msrval, 15, 15) && get_bits(msrval, 47, 47)` (int truthiness as
`Bool`). -/
def is_pkg_platform_enabled (msrval : Nat) : Bool :=
  (get_bits msrval 15 15 != 0) && (get_bits msrval 47 47 != 0)

/-- Embedding of the C static `is_core_uncore_dram_enabled`:
`get_bits(msrval, 15, 15)`. -/
def is_core_uncore_dram_enabled (msrval : Nat) : Bool :=
  get_bits msrval 15 15 != 0

/-- Embedding of the C static `set_pkg_platform_enabled`: writes the RAPL
enable bits 15 and 47 and the clamping enable bits 16 and 48. -/
def set_pkg_platform_enabled (msrval : Nat) (enabled : Bool) : Nat :=
  let s : Nat := if enabled then 1 else 0
  let m1 := replace_bits msrval s 15 15
  let m2 := replace_bits m1 s 47 47
  let m3 := replace_bits m2 s 16 16
  replace_bits m3 s 48 48

/-- Embedding of the C static `set_core_uncore_dram_enabled`: writes the RAPL
enable bit 15 and the clamping enable bit 16. -/
def set_core_uncore_dram_enabled (msrval : Nat) (enabled : Bool) : Nat :=
  let s : Nat := if enabled then 1 else 0
  let m1 := replace_bits msrval s 15 15
  replace_bits m1 s 16 16

/-- The register-word transformation performed by `raplcap_set_zone_enabled`
between its read and its write of the zone's MSR (the zone dispatch switch). -/
def set_zone_enabled_word (zone : raplcap_zone) (msrval : Nat) (enabled : Bool) : Nat :=
  match zone with
  | .PACKAGE | .PSYS => set_pkg_platform_enabled msrval enabled
  | .CORE | .UNCORE | .DRAM => set_core_uncore_dram_enabled msrval enabled

/-- The zone dispatch of `raplcap_is_zone_enabled` applied to a register word
already read from the zone's MSR. -/
def is_zone_enabled_word (zone : raplcap_zone) (msrval : Nat) : Bool :=
  match zone with
  | .PACKAGE | .PSYS => is_pkg_platform_enabled msrval
  | .CORE | .UNCORE | .DRAM => is_core_uncore_dram_enabled msrval

/-- Embedding of the C static `to_time_window_F`: `1.0 + 0.1 * bits`, with
the literal 0.1 modelled by its exact value 1/10. -/
def to_time_window_F (bits : Nat) : ℚ :=
  1 + (1 / 10) * (bits : ℚ)

/-- Embedding of the C static `get_pkg_platform` (Class A decode): the pair
(long-term limit, short-term limit).  The C function fills only the non-NULL
out-parameters; the decode of each is modelled unconditionally since it is
pure. -/
def get_pkg_platform (msrval : Nat) (st : raplcap_msr) : raplcap_limit × raplcap_limit :=
  let watts_long : ℚ := st.power_units * (get_bits msrval 0 14 : ℚ)
  let seconds_long : ℚ :=
    2 ^ (get_bits msrval 17 21) * (1 + (get_bits msrval 22 23 : ℚ) / 4) * st.time_units
  let watts_short : ℚ := st.power_units * (get_bits msrval 32 46 : ℚ)
  let seconds_short : ℚ :=
    2 ^ (get_bits msrval 49 53) * (1 + (get_bits msrval 54 55 : ℚ) / 4) * st.time_units
  (⟨seconds_long, watts_long⟩, ⟨seconds_short, watts_short⟩)

/-- Embedding of the C static `get_core_uncore_dram` (Class B decode): the
long-term limit. -/
def get_core_uncore_dram (msrval : Nat) (st : raplcap_msr) : raplcap_limit :=
  ⟨2 ^ (get_bits msrval 17 21) * to_time_window_F (get_bits msrval 22 23) * st.time_units,
   st.power_units * (get_bits msrval 0 14 : ℚ)⟩

/-- Model of the C conversion `(uint64_t)q` of a `double` at the calls of
`replace_bits` in the set functions: truncation toward zero.  The conversion
is defined in C for values in (-1, 2^64); all uses in the theorems below are
guarded to nonnegative values, where truncation is the floor. -/
def ratTrunc (q : ℚ) : Nat :=
  (⌊q⌋).toNat

/-- Model of the C expression `(uint64_t)log2(q)` in the set functions, at
exact real arithmetic.  For `q ≥ 1` this is the integer part of `log2 q`,
which equals `Nat.log 2 ⌊q⌋`; for `0 < q < 1` the C truncation yields 0 on
`(1/2, 1)` and is undefined below (negative values do not convert to
`uint64_t`), so the theorems about the set functions restrict to `q ≥ 1`. -/
def clog2 (q : ℚ) : Nat :=
  Nat.log 2 (⌊q⌋).toNat

/-- Embedding of the C static `set_pkg_platform` (Class A encode): each
sub-field is rewritten only when its limit argument is present (non-NULL)
and the requested value is strictly positive; the time encodes reuse the
fraction bits currently stored in the (partially updated) word. -/
def set_pkg_platform (msrval : Nat) (st : raplcap_msr)
    (limit_long limit_short : Option raplcap_limit) : Nat :=
  let m1 :=
    match limit_long with
    | none => msrval
    | some l =>
      let a := if 0 < l.watts then replace_bits msrval (ratTrunc (l.watts / st.power_units)) 0 14
               else msrval
      if 0 < l.seconds then
        replace_bits a
          (clog2 ((4 * l.seconds) / (st.time_units * ((get_bits a 22 23 : ℚ) + 4)))) 17 21
      else a
  match limit_short with
  | none => m1
  | some l =>
    let a := if 0 < l.watts then replace_bits m1 (ratTrunc (l.watts / st.power_units)) 32 46
             else m1
    if 0 < l.seconds then
      replace_bits a
        (clog2 ((4 * l.seconds) / (st.time_units * ((get_bits a 54 55 : ℚ) + 4)))) 49 53
    else a

/-- Embedding of the C static `set_core_uncore_dram` (Class B encode).  Note
that the time encode divides only by `to_time_window_F(Z)`: unlike the Class
A encode (and unlike the Class B decode equation it solves), it does not
divide by the time units. -/
def set_core_uncore_dram (msrval : Nat) (st : raplcap_msr)
    (limit_long : Option raplcap_limit) : Nat :=
  match limit_long with
  | none => msrval
  | some l =>
    let a := if 0 < l.watts then replace_bits msrval (ratTrunc (l.watts / st.power_units)) 0 14
             else msrval
    if 0 < l.seconds then
      replace_bits a (clog2 (l.seconds / to_time_window_F (get_bits a 22 23))) 17 21
    else a

/-- Teardown model (raplcap_destroy).  A session's handles are the open file
descriptors together with the outcome of `close()` on each: `none` models a
successful close, `some e` a failing close that sets `errno` to `e` (`e ≠ 0`
for a real failure).  `destroy_errsave` is the value of `err_save` after the
loop `for (i = 0; ...; i++) if (fds[i] > 0 && close(fds[i])) err_save = errno;`
starting from `err_save = 0`. -/
def destroy_errsave (handles : List (Int × Option Nat)) : Nat :=
  handles.foldl
    (fun err h => if 0 < h.1 then (match h.2 with | some e => e | none => err) else err) 0

/-- The return value of `raplcap_destroy` (for a session with state):
`err_save ? -1 : 0`. -/
def raplcap_destroy_ret (handles : List (Int × Option Nat)) : Int :=
  if destroy_errsave handles = 0 then 0 else -1

/-- The close failures of a teardown, in loop order: the errno values of the
failing closes among the handles with a positive file descriptor. -/
def closeFailures (handles : List (Int × Option Nat)) : List Nat :=
  handles.filterMap (fun h => if 0 < h.1 then h.2 else none)

/-- Topology model for `count_sockets`.  The shell pipeline
`egrep 'physical id' /proc/cpuinfo | sort -u | cut -d : -f 2 | awk ... | tail -n 1`
sorts the matching lines byte-wise; since every `physical id` line consists
of the same fixed prefix followed by the id in decimal, the sort order of the
lines is the lexicographic order of the id digit strings.  An id is modelled
as its list of decimal digits (most significant first, no leading zeros, as
printed by the kernel), and a topology as the list of ids of the physical-id
lines, one per logical CPU.  `lexLE` is the byte-wise string comparison of
`sort` restricted to such lines. -/
def lexLE : List Nat → List Nat → Bool
  | [], _ => true
  | _ :: _, [] => false
  | a :: as, b :: bs => if a < b then true else if b < a then false else lexLE as bs

/-- The composite `sort -u | ... | tail -n 1` of the `count_sockets` pipeline:
the last line of the unique-sort is its greatest line, i.e. the
lexicographically greatest id (deduplication does not change the last line). -/
def sortTail (ids : List (List Nat)) : Option (List Nat) :=
  ids.foldl
    (fun acc s => match acc with
      | none => some s
      | some m => some (if lexLE m s then s else m)) none

/-- Numeric value of a decimal digit string, as `strtoul` parses the
pipeline's output (the ids carry no base prefix, so base 0 parses them as
decimal). -/
def decVal (ds : List Nat) : Nat :=
  ds.foldl (fun a d => 10 * a + d) 0

/-- Embedding of the C static `count_sockets`: 0 when the pipeline produces
no line (no CPU information / nothing parsed), otherwise the parsed value of
the pipeline's last line plus one. -/
def count_sockets (ids : List (List Nat)) : Nat :=
  match sortTail ids with
  | none => 0
  | some s => decVal s + 1

/-- Specification-side numeric maximum over the observed physical ids. -/
def maxIdVal (ids : List (List Nat)) : Nat :=
  ids.foldl (fun a s => max a (decVal s)) 0

/-- Topology model for `raplcap_open_msrs`.  Each line of the piped
`/proc/cpuinfo` output is `sscanf`-parsed into a (physical id, core id) pair;
`none` models a line from which `sscanf` extracts fewer than the two expected
fields.  The C arrays `coreids[sockets]` / `coreids_found[sockets]` are
modelled by one function `Nat → Option Nat` (`none` = not found), consulted
only at indices below `sockets`. -/
def coreid_update (f : Nat → Option Nat) (s c : Nat) : Nat → Option Nat :=
  fun i =>
    if i = s then
      match f s with
      | none => some c
      | some cur => some (if c < cur then c else cur)
    else f i

/-- The line loop of `raplcap_open_msrs`: aborts (discovery error) on a parse
failure or on a physical id not below the socket count, otherwise keeps the
smallest core id seen for each socket. -/
def msrs_scan (sockets : Nat) (f : Nat → Option Nat) :
    List (Option (Nat × Nat)) → Option (Nat → Option Nat)
  | [] => some f
  | none :: _ => none
  | some (s, c) :: rest =>
    if sockets ≤ s then none else msrs_scan sockets (coreid_update f s c) rest

/-- Embedding of the discovery part of the C static `raplcap_open_msrs`:
the socket → core id mapping it computes before opening the MSR files, or
`none` on any discovery error (parse failure, physical id out of range, or a
socket with no observed core id). -/
def raplcap_open_msrs (sockets : Nat) (lines : List (Option (Nat × Nat))) :
    Option (Nat → Nat) :=
  match msrs_scan sockets (fun _ => none) lines with
  | none => none
  | some f =>
    if (List.range sockets).all (fun i => (f i).isSome) then
      some (fun i => (f i).getD 0)
    else none

/-- The core ids observed for socket `s`, in line order. -/
def socketCores (lines : List (Option (Nat × Nat))) (s : Nat) : List Nat :=
  lines.filterMap (fun line =>
    match line with
    | some (s2, c) => if s2 = s then some c else none
    | none => none)

/-- Specification-side running minimum, as `coreid_update` maintains it for
one socket: absorb a new core id into the smallest-so-far. -/
def optMin (o : Option Nat) (c : Nat) : Option Nat :=
  match o with
  | none => some c
  | some cur => some (if c < cur then c else cur)

/-- Specification-side fold of `optMin` over a list of observed core ids. -/
def foldMin (o : Option Nat) (cs : List Nat) : Option Nat :=
  cs.foldl optMin o

theorem get_bitsC_eq (msrval first last : Nat) (h : last - first ≤ 29) :
    get_bitsC msrval first last = some (get_bits msrval first last) := by
  have hw : last - first + 1 ≤ 30 := by omega
  simp [get_bitsC, shl1_int, get_bits, hw]

theorem replace_bitsC_eq (msrval data first last : Nat) (h : last - first ≤ 62) :
    replace_bitsC msrval data first last = some (replace_bits msrval data first last) := by
  have hw : last - first + 1 ≤ 63 := by omega
  simp [replace_bitsC, shl1_u64, replace_bits, hw]

theorem mask_lt_M64 (w f : Nat) (h : w + f ≤ 64) : (2 ^ w - 1) <<< f < M64 := by
  have h1 : 2 ^ w - 1 < 2 ^ w := Nat.sub_lt (Nat.pos_pow_of_pos w (by norm_num)) one_pos
  calc (2 ^ w - 1) <<< f = (2 ^ w - 1) * 2 ^ f := Nat.shiftLeft_eq _ _
    _ < 2 ^ w * 2 ^ f := by
        have : 0 < 2 ^ f := Nat.pos_pow_of_pos f (by norm_num)
        exact Nat.mul_lt_mul_of_lt_of_le h1 (le_refl _) this
    _ = 2 ^ (w + f) := (pow_add 2 w f).symm
    _ ≤ 2 ^ 64 := Nat.pow_le_pow_right (by norm_num) h

/-- Bit-level description of `replace_bits`: bits inside the (inclusive)
range come from `data`, bits outside it come from `msrval` (and the result
is a 64-bit word, so bits at positions 64 and above are clear). -/
theorem replace_bits_testBit (m v f l : Nat) (hfl : f ≤ l) (hl : l < 64) (i : Nat) :
    (replace_bits m v f l).testBit i =
      if f ≤ i ∧ i ≤ l then v.testBit (i - f)
      else (m.testBit i && decide (i < 64)) := by
  have hmask : (2 ^ (l - f + 1) - 1) <<< f % M64 = (2 ^ (l - f + 1) - 1) <<< f :=
    Nat.mod_eq_of_lt (mask_lt_M64 _ _ (by omega))
  simp only [replace_bits, M64] at *
  rw [hmask]
  simp only [Nat.testBit_lor, Nat.testBit_land, Nat.testBit_xor,
    Nat.testBit_mod_two_pow, Nat.testBit_shiftLeft, Nat.testBit_two_pow_sub_one,
    ge_iff_le]
  by_cases h1 : f ≤ i <;> by_cases h2 : i ≤ l <;> by_cases h3 : i < 64 <;>
    first
      | omega
      | (have hx : i - f < l - f + 1 := by omega
         simp [h1, h2, h3, hx])
      | (have hx : ¬ (i - f < l - f + 1) := by omega
         simp [h1, h2, h3, hx])

theorem replace_bits_lt_M64 (m v f l : Nat) : replace_bits m v f l < M64 := by
  have hM : (0:Nat) < M64 := by simp [M64]
  have h1 : m &&& ((((2 ^ (l - f + 1) - 1) <<< f) % M64) ^^^ (M64 - 1)) < M64 := by
    calc m &&& _ ≤ _ := Nat.and_le_right
      _ < M64 := by
        have := Nat.xor_lt_two_pow (n := 64)
          (x := ((2 ^ (l - f + 1) - 1) <<< f) % M64) (y := M64 - 1)
        simp only [M64] at *
        exact this (Nat.mod_lt _ (by norm_num)) (by omega)
  have h2 : ((v <<< f) % M64) &&& (((2 ^ (l - f + 1) - 1) <<< f) % M64) < M64 := by
    calc ((v <<< f) % M64) &&& _ ≤ (v <<< f) % M64 := Nat.and_le_left
      _ < M64 := Nat.mod_lt _ hM
  have := Nat.or_lt_two_pow (n := 64)
    (x := m &&& ((((2 ^ (l - f + 1) - 1) <<< f) % M64) ^^^ (M64 - 1)))
    (y := ((v <<< f) % M64) &&& (((2 ^ (l - f + 1) - 1) <<< f) % M64))
  simp only [M64] at *
  exact this h1 h2

theorem get_bits_testBit (m f l i : Nat) :
    (get_bits m f l).testBit i = (m.testBit (f + i) && decide (i < l - f + 1)) := by
  simp only [get_bits, Nat.testBit_land, Nat.testBit_shiftRight,
    Nat.testBit_two_pow_sub_one]

theorem get_bits_lt (m f l : Nat) : get_bits m f l < 2 ^ (l - f + 1) := by
  have h1 : get_bits m f l ≤ 2 ^ (l - f + 1) - 1 := Nat.and_le_right
  have h2 : 0 < 2 ^ (l - f + 1) := Nat.pos_pow_of_pos _ (by norm_num)
  omega

/-- Reading back the field just written returns the written value reduced to
the field's width. -/
theorem get_bits_replace_bits_same (m v f l : Nat) (hfl : f ≤ l) (hl : l < 64) :
    get_bits (replace_bits m v f l) f l = v % 2 ^ (l - f + 1) := by
  apply Nat.eq_of_testBit_eq
  intro i
  rw [get_bits_testBit, replace_bits_testBit m v f l hfl hl, Nat.testBit_mod_two_pow]
  by_cases hi : i < l - f + 1
  · have h1 : f ≤ f + i := Nat.le_add_right _ _
    have h2 : f + i ≤ l := by omega
    simp [h1, h2, hi, Nat.add_sub_cancel_left]
  · have h2 : ¬ (f + i ≤ l) := by omega
    simp [h2, hi]

/-- Writing one field leaves every other (disjoint) field unchanged. -/
theorem get_bits_replace_bits_disjoint (m v f l f2 l2 : Nat) (hfl : f ≤ l)
    (hl : l < 64) (hf2l2 : f2 ≤ l2) (hl2 : l2 < 64) (hdisj : l2 < f ∨ l < f2) :
    get_bits (replace_bits m v f l) f2 l2 = get_bits m f2 l2 := by
  apply Nat.eq_of_testBit_eq
  intro i
  rw [get_bits_testBit, get_bits_testBit, replace_bits_testBit m v f l hfl hl]
  by_cases hi : i < l2 - f2 + 1
  · have hout : ¬ (f ≤ f2 + i ∧ f2 + i ≤ l) := by omega
    have h64 : f2 + i < 64 := by omega
    simp [hout, h64]
  · simp [hi]

/-- A single-bit field is the corresponding `testBit`. -/
theorem get_bits_single (m b : Nat) : get_bits m b b = if m.testBit b then 1 else 0 := by
  have h : get_bits m b b = (m >>> b) &&& 1 := by
    simp [get_bits]
  rw [h, Nat.and_one_is_mod, Nat.shiftRight_eq_div_pow]
  have := Nat.testBit_to_div_mod (i := b) (x := m)
  rcases Nat.mod_two_eq_zero_or_one (m / 2 ^ b) with h0 | h1
  · simp [this, h0]
  · simp [this, h1]

theorem testBit_replace_out (m v f l i : Nat) (hfl : f ≤ l) (hl : l < 64)
    (hi : i < 64) (h : ¬(f ≤ i ∧ i ≤ l)) :
    (replace_bits m v f l).testBit i = m.testBit i := by
  rw [replace_bits_testBit m v f l hfl hl i, if_neg h]
  simp [hi]

theorem testBit_ge_64_false (x i : Nat) (hx : x < M64) (hi : 64 ≤ i) :
    x.testBit i = false := by
  apply Nat.testBit_lt_two_pow
  calc x < M64 := hx
    _ ≤ 2 ^ i := Nat.pow_le_pow_right (by norm_num) hi

theorem get_bits_eq_of_testBit_eq_below (x y f l : Nat) (hfl : f ≤ l)
    (h : ∀ j, f ≤ j → j ≤ l → x.testBit j = y.testBit j) :
    get_bits x f l = get_bits y f l := by
  apply Nat.eq_of_testBit_eq
  intro i
  rw [get_bits_testBit, get_bits_testBit]
  by_cases hi : i < l - f + 1
  · rw [h (f + i) (by omega) (by omega)]
  · simp [hi]

theorem set_pkg_platform_enabled_testBit (m : Nat) (v : Bool) (i : Nat) (hi : i < 64) :
    (set_pkg_platform_enabled m v).testBit i =
      if i = 15 ∨ i = 16 ∨ i = 47 ∨ i = 48 then v else m.testBit i := by
  have hs : ((if v then (1:Nat) else 0)).testBit 0 = v := by cases v <;> decide
  have hcond : ∀ b : Nat, (b ≤ i ∧ i ≤ b) ↔ i = b := fun b => by omega
  simp only [set_pkg_platform_enabled]
  rw [replace_bits_testBit _ _ _ _ le_rfl (by norm_num) i,
      replace_bits_testBit _ _ _ _ le_rfl (by norm_num) i,
      replace_bits_testBit _ _ _ _ le_rfl (by norm_num) i,
      replace_bits_testBit _ _ _ _ le_rfl (by norm_num) i]
  simp only [hcond]
  by_cases h15 : i = 15 <;> by_cases h16 : i = 16 <;>
    by_cases h47 : i = 47 <;> by_cases h48 : i = 48 <;>
    simp_all [hs, hi]

theorem set_core_uncore_dram_enabled_testBit (m : Nat) (v : Bool) (i : Nat) (hi : i < 64) :
    (set_core_uncore_dram_enabled m v).testBit i =
      if i = 15 ∨ i = 16 then v else m.testBit i := by
  have hs : ((if v then (1:Nat) else 0)).testBit 0 = v := by cases v <;> decide
  have hcond : ∀ b : Nat, (b ≤ i ∧ i ≤ b) ↔ i = b := fun b => by omega
  simp only [set_core_uncore_dram_enabled]
  rw [replace_bits_testBit _ _ _ _ le_rfl (by norm_num) i,
      replace_bits_testBit _ _ _ _ le_rfl (by norm_num) i]
  simp only [hcond]
  by_cases h15 : i = 15 <;> by_cases h16 : i = 16 <;> simp_all [hs, hi]

theorem get_bits_single_ne (m b : Nat) : (get_bits m b b != 0) = m.testBit b := by
  rw [get_bits_single]
  cases h : m.testBit b <;> simp [h]

theorem get_bits_set_zone_enabled_eq (z : raplcap_zone) (m : Nat) (v : Bool)
    (f l : Nat) (hfl : f ≤ l) (hl : l < 64)
    (h : ∀ j, f ≤ j → j ≤ l → j ≠ 15 ∧ j ≠ 16 ∧ j ≠ 47 ∧ j ≠ 48) :
    get_bits (set_zone_enabled_word z m v) f l = get_bits m f l := by
  cases z <;> simp only [set_zone_enabled_word] <;>
    apply get_bits_eq_of_testBit_eq_below _ _ _ _ hfl <;> intro j hj1 hj2 <;>
    first
      | (rw [set_pkg_platform_enabled_testBit m v j (by omega), if_neg (by
          have := h j hj1 hj2; omega)])
      | (rw [set_core_uncore_dram_enabled_testBit m v j (by omega), if_neg (by
          have := h j hj1 hj2; omega)])

/-- C7: a Class A zone (Package, Psys) is reported enabled iff bits 15 and 47
are both set, a Class B zone (Core, Uncore, Dram) iff bit 15 is set;
`set_enabled(v)` writes `v` into bits 15, 16, 47, 48 (Class A) resp. bits
15, 16 (Class B), and `is_enabled` then observes the value just set. -/
theorem claim7_enabled_bits : ∀ (m : Nat) (v : Bool),
    (is_pkg_platform_enabled m = true ↔ (m.testBit 15 = true ∧ m.testBit 47 = true))
  ∧ (is_core_uncore_dram_enabled m = true ↔ m.testBit 15 = true)
  ∧ (set_pkg_platform_enabled m v).testBit 15 = v
  ∧ (set_pkg_platform_enabled m v).testBit 16 = v
  ∧ (set_pkg_platform_enabled m v).testBit 47 = v
  ∧ (set_pkg_platform_enabled m v).testBit 48 = v
  ∧ (set_core_uncore_dram_enabled m v).testBit 15 = v
  ∧ (set_core_uncore_dram_enabled m v).testBit 16 = v
  ∧ is_pkg_platform_enabled (set_pkg_platform_enabled m v) = v
  ∧ is_core_uncore_dram_enabled (set_core_uncore_dram_enabled m v) = v := by
  intro m v
  have a15 : (set_pkg_platform_enabled m v).testBit 15 = v := by
    rw [set_pkg_platform_enabled_testBit m v 15 (by norm_num)]; simp
  have a16 : (set_pkg_platform_enabled m v).testBit 16 = v := by
    rw [set_pkg_platform_enabled_testBit m v 16 (by norm_num)]; simp
  have a47 : (set_pkg_platform_enabled m v).testBit 47 = v := by
    rw [set_pkg_platform_enabled_testBit m v 47 (by norm_num)]; simp
  have a48 : (set_pkg_platform_enabled m v).testBit 48 = v := by
    rw [set_pkg_platform_enabled_testBit m v 48 (by norm_num)]; simp
  have b15 : (set_core_uncore_dram_enabled m v).testBit 15 = v := by
    rw [set_core_uncore_dram_enabled_testBit m v 15 (by norm_num)]; simp
  have b16 : (set_core_uncore_dram_enabled m v).testBit 16 = v := by
    rw [set_core_uncore_dram_enabled_testBit m v 16 (by norm_num)]; simp
  refine ⟨?_, ?_, a15, a16, a47, a48, b15, b16, ?_, ?_⟩
  · simp only [is_pkg_platform_enabled, get_bits_single_ne, Bool.and_eq_true]
  · simp only [is_core_uncore_dram_enabled, get_bits_single_ne]
  · simp only [is_pkg_platform_enabled, get_bits_single_ne, a15, a47, Bool.and_self]
  · simp only [is_core_uncore_dram_enabled, get_bits_single_ne, b15]

/-- C10: an enable/disable operation modifies at most bits 15, 16, 47, 48 of
the register word for Class A zones and at most bits 15, 16 for Class B
zones; in particular every power-limit and time-window field survives it
unchanged. -/
theorem claim10_enable_frame : ∀ (z : raplcap_zone) (m : Nat) (v : Bool) (i : Nat),
    ((z = .PACKAGE ∨ z = .PSYS) → i < 64 → i ≠ 15 → i ≠ 16 → i ≠ 47 → i ≠ 48 →
      (set_zone_enabled_word z m v).testBit i = m.testBit i)
  ∧ ((z = .CORE ∨ z = .UNCORE ∨ z = .DRAM) → i < 64 → i ≠ 15 → i ≠ 16 →
      (set_zone_enabled_word z m v).testBit i = m.testBit i)
  ∧ get_bits (set_zone_enabled_word z m v) 0 14 = get_bits m 0 14
  ∧ get_bits (set_zone_enabled_word z m v) 17 21 = get_bits m 17 21
  ∧ get_bits (set_zone_enabled_word z m v) 22 23 = get_bits m 22 23
  ∧ get_bits (set_zone_enabled_word z m v) 32 46 = get_bits m 32 46
  ∧ get_bits (set_zone_enabled_word z m v) 49 53 = get_bits m 49 53
  ∧ get_bits (set_zone_enabled_word z m v) 54 55 = get_bits m 54 55 := by
  intro z m v i
  refine ⟨?_, ?_, ?_, ?_, ?_, ?_, ?_, ?_⟩
  · intro hz hi h15 h16 h47 h48
    rcases hz with rfl | rfl <;>
      simp only [set_zone_enabled_word] <;>
      rw [set_pkg_platform_enabled_testBit m v i hi, if_neg (by omega)]
  · intro hz hi h15 h16
    rcases hz with rfl | rfl | rfl <;>
      simp only [set_zone_enabled_word] <;>
      rw [set_core_uncore_dram_enabled_testBit m v i hi, if_neg (by omega)]
  · exact get_bits_set_zone_enabled_eq z m v 0 14 (by norm_num) (by norm_num)
      (fun j h1 h2 => by omega)
  · exact get_bits_set_zone_enabled_eq z m v 17 21 (by norm_num) (by norm_num)
      (fun j h1 h2 => by omega)
  · exact get_bits_set_zone_enabled_eq z m v 22 23 (by norm_num) (by norm_num)
      (fun j h1 h2 => by omega)
  · exact get_bits_set_zone_enabled_eq z m v 32 46 (by norm_num) (by norm_num)
      (fun j h1 h2 => by omega)
  · exact get_bits_set_zone_enabled_eq z m v 49 53 (by norm_num) (by norm_num)
      (fun j h1 h2 => by omega)
  · exact get_bits_set_zone_enabled_eq z m v 54 55 (by norm_num) (by norm_num)
      (fun j h1 h2 => by omega)

/-- Witness for C10 at a concrete input: disabling the Package zone on the
word with only bit 20 set leaves bit 20 intact. -/
theorem claim10_enable_frame_witness :
    (set_zone_enabled_word .PACKAGE (2 ^ 20) false).testBit 20 = (2 ^ 20 : Nat).testBit 20 :=
  (claim10_enable_frame .PACKAGE (2 ^ 20) false 20).1 (Or.inl rfl) (by decide)
    (by decide) (by decide) (by decide) (by decide)

/-- C9, counterexample to the claim as stated: at the range [0, 31] (width
32) the claim demands that `get_bits` applied after `replace_bits` return
`v mod 2^32`, but the `int`-typed mask computation `(1 << 32) - 1` inside
`get_bits` has no defined value in C (C11 6.5.7), so the round-trip read
yields no defined result there (on x86, where the shift count is taken
modulo 32, the computed mask is 0 and the read returns 0, likewise refuting
the claim).  `replace_bits` itself is still defined at this width (its mask
is computed in `uint64_t`) and stores the value. -/
theorem claim9_cex_wide_field :
    replace_bitsC 0 1 0 31 = some 1
  ∧ get_bitsC 1 0 31 = none
  ∧ get_bitsC 1 0 31 ≠ some (1 % 2 ^ 32) := by
  refine ⟨by decide, by decide, by decide⟩

/-- C9, amended: for every 64-bit word, value and inclusive bit range whose
width the C mask computations define — at most 30 bits for `get_bits`, whose
mask is computed in `int` (`replace_bits` alone is exact up to 63 bits) —
`replace_bits` clears exactly the range, inserts the value masked to the
range's width, leaves every bit outside the range unchanged, and `get_bits`
over the same range returns the value modulo `2 ^ width`. -/
theorem claim9_replace_get_exact : ∀ (w v f l : Nat),
    w < M64 → f ≤ l → l < 64 → l - f ≤ 29 →
    ∃ r, replace_bitsC w v f l = some r
      ∧ get_bitsC r f l = some (v % 2 ^ (l - f + 1))
      ∧ ∀ i, ¬(f ≤ i ∧ i ≤ l) → r.testBit i = w.testBit i := by
  intro w v f l hw hfl hl hwidth
  refine ⟨replace_bits w v f l, replace_bitsC_eq w v f l (by omega), ?_, ?_⟩
  · rw [get_bitsC_eq _ _ _ hwidth, get_bits_replace_bits_same w v f l hfl hl]
  · intro i hi
    by_cases h64 : i < 64
    · exact testBit_replace_out w v f l i hfl hl h64 hi
    · rw [testBit_ge_64_false _ i (replace_bits_lt_M64 w v f l) (by omega),
        testBit_ge_64_false w i hw (by omega)]

/-- Witness for C9 (amended) at a concrete input: writing value 6 into bits
8..11 of the word 2^63 + 5. -/
theorem claim9_replace_get_exact_witness :
    ∃ r, replace_bitsC (2 ^ 63 + 5) 6 8 11 = some r
      ∧ get_bitsC r 8 11 = some (6 % 2 ^ (11 - 8 + 1))
      ∧ ∀ i, ¬(8 ≤ i ∧ i ≤ 11) → r.testBit i = (2 ^ 63 + 5 : Nat).testBit i :=
  claim9_replace_get_exact (2 ^ 63 + 5) 6 8 11 (by decide) (by decide) (by decide)
    (by decide)

/-- C4: the time-window decode is `2^Y × (1 + Z/4) × time_unit` for Class A
(Package, Psys) and `2^Y × (1 + 0.1×Z) × time_unit` for Class B (Core,
Uncore, Dram), with Y = bits 17:21 and Z = bits 22:23; at Y = 3, Z = 2 and
`time_unit = 1/1024` they yield `8 × 1.5 × time_unit` resp.
`8 × 1.2 × time_unit`, which differ. -/
theorem claim4_time_window_decode : ∀ (msrval : Nat) (st : raplcap_msr),
    ((get_pkg_platform msrval st).1.seconds
      = 2 ^ (get_bits msrval 17 21) * (1 + (get_bits msrval 22 23 : ℚ) / 4) * st.time_units)
  ∧ ((get_pkg_platform msrval st).2.seconds
      = 2 ^ (get_bits msrval 49 53) * (1 + (get_bits msrval 54 55 : ℚ) / 4) * st.time_units)
  ∧ ((get_core_uncore_dram msrval st).seconds
      = 2 ^ (get_bits msrval 17 21) * (1 + (1 / 10) * (get_bits msrval 22 23 : ℚ)) * st.time_units)
  ∧ get_bits (3 <<< 17 + 2 <<< 22) 17 21 = 3
  ∧ get_bits (3 <<< 17 + 2 <<< 22) 22 23 = 2
  ∧ (get_pkg_platform (3 <<< 17 + 2 <<< 22) ⟨1, 1 / 1024⟩).1.seconds = 8 * (3 / 2) * (1 / 1024)
  ∧ (get_core_uncore_dram (3 <<< 17 + 2 <<< 22) ⟨1, 1 / 1024⟩).seconds = 8 * (6 / 5) * (1 / 1024)
  ∧ (get_pkg_platform (3 <<< 17 + 2 <<< 22) ⟨1, 1 / 1024⟩).1.seconds
      ≠ (get_core_uncore_dram (3 <<< 17 + 2 <<< 22) ⟨1, 1 / 1024⟩).seconds := by
  intro msrval st
  have hY : get_bits (3 <<< 17 + 2 <<< 22) 17 21 = 3 := by decide
  have hZ : get_bits (3 <<< 17 + 2 <<< 22) 22 23 = 2 := by decide
  refine ⟨rfl, rfl, rfl, hY, hZ, ?_, ?_, ?_⟩
  · simp only [get_pkg_platform, hY, hZ]
    norm_num
  · simp only [get_core_uncore_dram, to_time_window_F, hY, hZ]
    norm_num
  · simp only [get_pkg_platform, get_core_uncore_dram, to_time_window_F, hY, hZ]
    norm_num

theorem getLast?_getD_cons {α : Type} (a : α) (l : List α) (d : α) :
    ((a :: l).getLast?).getD d = (l.getLast?).getD a := by
  cases l with
  | nil => simp
  | cons b t =>
    rw [List.getLast?_cons_cons]
    cases hbt : (b :: t).getLast? with
    | none => simp at hbt
    | some x => simp

theorem destroy_errsave_foldl (handles : List (Int × Option Nat)) : ∀ init : Nat,
    handles.foldl
      (fun err h => if 0 < h.1 then (match h.2 with | some e => e | none => err) else err) init
    = ((closeFailures handles).getLast?).getD init := by
  induction handles with
  | nil => intro init; simp [closeFailures]
  | cons x t ih =>
    intro init
    obtain ⟨fd, r⟩ := x
    by_cases hfd : 0 < fd
    · cases r with
      | none =>
        simp only [List.foldl_cons, closeFailures, List.filterMap_cons, hfd, if_pos]
        exact ih init
      | some e =>
        simp only [List.foldl_cons, closeFailures, List.filterMap_cons, hfd, if_pos]
        rw [getLast?_getD_cons]
        exact ih e
    · simp only [List.foldl_cons, closeFailures, List.filterMap_cons, hfd, if_neg,
        ite_false]
      exact ih init

/-- C1, counterexample to the claim as stated: with two handles whose closes
fail with errno 5 and then errno 7, the error reported by teardown is 7 — the
error of the last failing close — while the claim says the first error (5) is
what gets returned (each failing close overwrites `err_save`). -/
theorem claim1_cex_first_error :
    destroy_errsave [((1:Int), some 5), ((2:Int), some 7)] = 7
  ∧ (closeFailures [((1:Int), some 5), ((2:Int), some 7)]).head? = some 5
  ∧ destroy_errsave [((1:Int), some 5), ((2:Int), some 7)] ≠ 5 :=
  ⟨by decide, by decide, by decide⟩

/-- C1, amended: teardown still attempts to close every remaining handle
after a failing close (no early exit; the reported error is a function of
the entire handle list), but the error it reports is that of the **last**
failing close, each failure overwriting the saved error of the earlier ones;
the return value is -1 exactly when some close of a positive file descriptor
failed with a nonzero errno. -/
theorem claim1_destroy_last_error : ∀ handles : List (Int × Option Nat),
    destroy_errsave handles = ((closeFailures handles).getLast?).getD 0
  ∧ raplcap_destroy_ret handles
      = (if ((closeFailures handles).getLast?).getD 0 = 0 then 0 else -1) := by
  intro handles
  have h := destroy_errsave_foldl handles 0
  constructor
  · simpa only [destroy_errsave] using h
  · rw [raplcap_destroy_ret]
    rw [show destroy_errsave handles
          = ((closeFailures handles).getLast?).getD 0 from by
        simpa only [destroy_errsave] using h]

/-- C6: a limit sub-field is rewritten only when its Limit argument is
present and its requested value is strictly positive: an absent Limit leaves
the word unchanged, a value ≤ 0 leaves that sub-field's stored bits
unchanged, and the Class A short-term fields (bits 32:46, 49:53, 54:55) are
untouched when only a long-term Limit is supplied, and vice versa (stated
bit-wise: a long-term-only call touches at most bits 0:14 and 17:21, a
short-term-only call at most bits 32:46 and 49:53). -/
theorem claim6_set_limits_frame : ∀ (m : Nat) (st : raplcap_msr) (s w : ℚ) (i : Nat),
    set_pkg_platform m st none none = m
  ∧ set_core_uncore_dram m st none = m
  ∧ (i < 64 → ¬(i ≤ 14) → ¬(17 ≤ i ∧ i ≤ 21) →
      (set_pkg_platform m st (some ⟨s, w⟩) none).testBit i = m.testBit i)
  ∧ (i < 64 → ¬(i ≤ 14) → ¬(17 ≤ i ∧ i ≤ 21) →
      (set_core_uncore_dram m st (some ⟨s, w⟩)).testBit i = m.testBit i)
  ∧ (i < 64 → ¬(32 ≤ i ∧ i ≤ 46) → ¬(49 ≤ i ∧ i ≤ 53) →
      (set_pkg_platform m st none (some ⟨s, w⟩)).testBit i = m.testBit i)
  ∧ (w ≤ 0 → get_bits (set_pkg_platform m st (some ⟨s, w⟩) none) 0 14 = get_bits m 0 14)
  ∧ (w ≤ 0 → get_bits (set_core_uncore_dram m st (some ⟨s, w⟩)) 0 14 = get_bits m 0 14)
  ∧ (w ≤ 0 → get_bits (set_pkg_platform m st none (some ⟨s, w⟩)) 32 46 = get_bits m 32 46)
  ∧ (s ≤ 0 → get_bits (set_pkg_platform m st (some ⟨s, w⟩) none) 17 21 = get_bits m 17 21)
  ∧ (s ≤ 0 → get_bits (set_core_uncore_dram m st (some ⟨s, w⟩)) 17 21 = get_bits m 17 21)
  ∧ (s ≤ 0 → get_bits (set_pkg_platform m st none (some ⟨s, w⟩)) 49 53 = get_bits m 49 53)
  ∧ (s ≤ 0 → w ≤ 0 → set_pkg_platform m st (some ⟨s, w⟩) none = m) := by
  intro m st s w i
  refine ⟨rfl, rfl, ?_, ?_, ?_, ?_, ?_, ?_, ?_, ?_, ?_, ?_⟩
  · intro hi h0 h17
    by_cases hw : 0 < w <;> by_cases hs : 0 < s <;>
      simp only [set_pkg_platform, hw, hs, ite_true, ite_false, if_true, if_false] <;>
      first
        | rw [testBit_replace_out _ _ 17 21 i (by norm_num) (by norm_num) hi (by omega),
            testBit_replace_out _ _ 0 14 i (by norm_num) (by norm_num) hi (by omega)]
        | rw [testBit_replace_out _ _ 0 14 i (by norm_num) (by norm_num) hi (by omega)]
        | rw [testBit_replace_out _ _ 17 21 i (by norm_num) (by norm_num) hi (by omega)]
        | rfl
  · intro hi h0 h17
    by_cases hw : 0 < w <;> by_cases hs : 0 < s <;>
      simp only [set_core_uncore_dram, hw, hs, ite_true, ite_false, if_true, if_false] <;>
      first
        | rw [testBit_replace_out _ _ 17 21 i (by norm_num) (by norm_num) hi (by omega),
            testBit_replace_out _ _ 0 14 i (by norm_num) (by norm_num) hi (by omega)]
        | rw [testBit_replace_out _ _ 0 14 i (by norm_num) (by norm_num) hi (by omega)]
        | rw [testBit_replace_out _ _ 17 21 i (by norm_num) (by norm_num) hi (by omega)]
        | rfl
  · intro hi h32 h49
    by_cases hw : 0 < w <;> by_cases hs : 0 < s <;>
      simp only [set_pkg_platform, hw, hs, ite_true, ite_false, if_true, if_false] <;>
      first
        | rw [testBit_replace_out _ _ 49 53 i (by norm_num) (by norm_num) hi (by omega),
            testBit_replace_out _ _ 32 46 i (by norm_num) (by norm_num) hi (by omega)]
        | rw [testBit_replace_out _ _ 32 46 i (by norm_num) (by norm_num) hi (by omega)]
        | rw [testBit_replace_out _ _ 49 53 i (by norm_num) (by norm_num) hi (by omega)]
        | rfl
  · intro hwle
    have hw : ¬ 0 < w := not_lt.mpr hwle
    by_cases hs : 0 < s <;>
      simp only [set_pkg_platform, hw, hs, ite_true, ite_false, if_true, if_false] <;>
      first
        | exact get_bits_replace_bits_disjoint m _ 17 21 0 14 (by norm_num) (by norm_num)
            (by norm_num) (by norm_num) (Or.inl (by norm_num))
        | rfl
  · intro hwle
    have hw : ¬ 0 < w := not_lt.mpr hwle
    by_cases hs : 0 < s <;>
      simp only [set_core_uncore_dram, hw, hs, ite_true, ite_false, if_true, if_false] <;>
      first
        | exact get_bits_replace_bits_disjoint m _ 17 21 0 14 (by norm_num) (by norm_num)
            (by norm_num) (by norm_num) (Or.inl (by norm_num))
        | rfl
  · intro hwle
    have hw : ¬ 0 < w := not_lt.mpr hwle
    by_cases hs : 0 < s <;>
      simp only [set_pkg_platform, hw, hs, ite_true, ite_false, if_true, if_false] <;>
      first
        | exact get_bits_replace_bits_disjoint m _ 49 53 32 46 (by norm_num) (by norm_num)
            (by norm_num) (by norm_num) (Or.inl (by norm_num))
        | rfl
  · intro hsle
    have hs : ¬ 0 < s := not_lt.mpr hsle
    by_cases hw : 0 < w <;>
      simp only [set_pkg_platform, hw, hs, ite_true, ite_false, if_true, if_false] <;>
      first
        | exact get_bits_replace_bits_disjoint m _ 0 14 17 21 (by norm_num) (by norm_num)
            (by norm_num) (by norm_num) (Or.inr (by norm_num))
        | rfl
  · intro hsle
    have hs : ¬ 0 < s := not_lt.mpr hsle
    by_cases hw : 0 < w <;>
      simp only [set_core_uncore_dram, hw, hs, ite_true, ite_false, if_true, if_false] <;>
      first
        | exact get_bits_replace_bits_disjoint m _ 0 14 17 21 (by norm_num) (by norm_num)
            (by norm_num) (by norm_num) (Or.inr (by norm_num))
        | rfl
  · intro hsle
    have hs : ¬ 0 < s := not_lt.mpr hsle
    by_cases hw : 0 < w <;>
      simp only [set_pkg_platform, hw, hs, ite_true, ite_false, if_true, if_false] <;>
      first
        | exact get_bits_replace_bits_disjoint m _ 32 46 49 53 (by norm_num) (by norm_num)
            (by norm_num) (by norm_num) (Or.inr (by norm_num))
        | rfl
  · intro hsle hwle
    have hs : ¬ 0 < s := not_lt.mpr hsle
    have hw : ¬ 0 < w := not_lt.mpr hwle
    simp only [set_pkg_platform, hw, hs, ite_false, if_false]

/-- Witness for C6 at a concrete input: a long-term-only set_limits call on
the Package zone leaves the short-term power bit 32 of the word 2^32
unchanged. -/
theorem claim6_set_limits_frame_witness :
    (set_pkg_platform (2 ^ 32) ⟨1, 1⟩ (some ⟨1, 1⟩) none).testBit 32
      = (2 ^ 32 : Nat).testBit 32 :=
  (claim6_set_limits_frame (2 ^ 32) ⟨1, 1⟩ 1 1 32).2.2.1 (by decide) (by decide)
    (by decide)

theorem decVal_foldl_init (ds : List Nat) : ∀ a0 : Nat,
    ds.foldl (fun a d => 10 * a + d) a0 = a0 * 10 ^ ds.length + decVal ds := by
  induction ds with
  | nil => intro a0; simp [decVal]
  | cons d t ih =>
    intro a0
    have h1 : decVal (d :: t) = d * 10 ^ t.length + decVal t := by
      show List.foldl (fun a d => 10 * a + d) (10 * 0 + d) t = _
      rw [ih (10 * 0 + d)]
      show (10 * 0 + d) * 10 ^ t.length + decVal t = _
      ring_nf
    rw [List.foldl_cons, ih (10 * a0 + d), h1, List.length_cons, pow_succ]
    ring

theorem decVal_cons (d : Nat) (t : List Nat) :
    decVal (d :: t) = d * 10 ^ t.length + decVal t := by
  show List.foldl (fun a d => 10 * a + d) (10 * 0 + d) t = _
  rw [decVal_foldl_init t (10 * 0 + d)]
  ring_nf

theorem decVal_lt (ds : List Nat) (h : ∀ d ∈ ds, d < 10) :
    decVal ds < 10 ^ ds.length := by
  induction ds with
  | nil => simp [decVal]
  | cons d t ih =>
    have hd : d < 10 := h d (by simp)
    have ht : decVal t < 10 ^ t.length := ih (fun x hx => h x (by simp [hx]))
    rw [decVal_cons, List.length_cons, pow_succ]
    have h9 : d * 10 ^ t.length ≤ 9 * 10 ^ t.length :=
      Nat.mul_le_mul_right _ (by omega)
    have : 9 * 10 ^ t.length + 10 ^ t.length = 10 ^ t.length * 10 := by ring
    omega

theorem lexLE_cons (x y : Nat) (xs ys : List Nat) :
    lexLE (x :: xs) (y :: ys)
      = if x < y then true else if y < x then false else lexLE xs ys := rfl

theorem lexLE_iff_decVal_le : ∀ (a b : List Nat), a.length = b.length →
    (∀ d ∈ a, d < 10) → (∀ d ∈ b, d < 10) →
    (lexLE a b = true ↔ decVal a ≤ decVal b)
  | [], [], _, _, _ => by simp [lexLE]
  | [], y :: ys, h, _, _ => by simp at h
  | x :: xs, [], h, _, _ => by simp at h
  | x :: xs, y :: ys, h, ha, hb => by
    have hlen : xs.length = ys.length := by simpa using h
    have hxs : ∀ d ∈ xs, d < 10 := fun d hd => ha d (by simp [hd])
    have hys : ∀ d ∈ ys, d < 10 := fun d hd => hb d (by simp [hd])
    have h1 : decVal xs < 10 ^ ys.length := by
      have := decVal_lt xs hxs; rwa [hlen] at this
    have h2 : decVal ys < 10 ^ ys.length := decVal_lt ys hys
    have hdx : decVal (x :: xs) = x * 10 ^ ys.length + decVal xs := by
      rw [decVal_cons, hlen]
    have hdy : decVal (y :: ys) = y * 10 ^ ys.length + decVal ys := decVal_cons y ys
    rcases Nat.lt_trichotomy x y with hlt | heq | hgt
    · have hkey : x * 10 ^ ys.length + decVal xs < y * 10 ^ ys.length + decVal ys := by
        have s1 : (x + 1) * 10 ^ ys.length ≤ y * 10 ^ ys.length :=
          Nat.mul_le_mul_right _ hlt
        have s2 : (x + 1) * 10 ^ ys.length = x * 10 ^ ys.length + 10 ^ ys.length := by
          ring
        omega
      have hL : lexLE (x :: xs) (y :: ys) = true := by rw [lexLE_cons]; simp [hlt]
      rw [hL, hdx, hdy]
      exact ⟨fun _ => le_of_lt hkey, fun _ => rfl⟩
    · subst heq
      have hL : lexLE (x :: xs) (x :: ys) = lexLE xs ys := by rw [lexLE_cons]; simp
      rw [hL, hdx, hdy, lexLE_iff_decVal_le xs ys hlen hxs hys]
      omega
    · have hkey : y * 10 ^ ys.length + decVal ys < x * 10 ^ ys.length + decVal xs := by
        have s1 : (y + 1) * 10 ^ ys.length ≤ x * 10 ^ ys.length :=
          Nat.mul_le_mul_right _ hgt
        have s2 : (y + 1) * 10 ^ ys.length = y * 10 ^ ys.length + 10 ^ ys.length := by
          ring
        omega
      have hL : lexLE (x :: xs) (y :: ys) = false := by
        have hxy : ¬ x < y := by omega
        rw [lexLE_cons]
        simp [hxy, hgt]
      rw [hL, hdx, hdy]
      refine ⟨fun hc => absurd hc (by simp), fun hle => absurd hle (by omega)⟩

theorem sortTail_max : ∀ (ids : List (List Nat)) (acc : List Nat) (n : Nat),
    acc.length = n → (∀ d ∈ acc, d < 10) →
    (∀ s ∈ ids, s.length = n) → (∀ s ∈ ids, ∀ d ∈ s, d < 10) →
    ∃ m, ids.foldl
        (fun acc s => match acc with
          | none => some s
          | some mm => some (if lexLE mm s then s else mm)) (some acc) = some m
      ∧ m.length = n ∧ (∀ d ∈ m, d < 10)
      ∧ decVal m = ids.foldl (fun a s => max a (decVal s)) (decVal acc) := by
  intro ids
  induction ids with
  | nil => intro acc n h1 h2 _ _; exact ⟨acc, rfl, h1, h2, rfl⟩
  | cons s t ih =>
    intro acc n hlen hdig hslen hsdig
    have hsl : s.length = n := hslen s (by simp)
    have hsd : ∀ d ∈ s, d < 10 := hsdig s (by simp)
    have htlen : ∀ u ∈ t, u.length = n := fun u hu => hslen u (by simp [hu])
    have htdig : ∀ u ∈ t, ∀ d ∈ u, d < 10 := fun u hu => hsdig u (by simp [hu])
    have hiff := lexLE_iff_decVal_le acc s (by rw [hlen, hsl]) hdig hsd
    by_cases hle : lexLE acc s = true
    · have hmax : max (decVal acc) (decVal s) = decVal s :=
        max_eq_right (hiff.mp hle)
      obtain ⟨m, hm1, hm2, hm3, hm4⟩ := ih s n hsl hsd htlen htdig
      refine ⟨m, ?_, hm2, hm3, ?_⟩
      · rw [List.foldl_cons]
        simpa [hle] using hm1
      · rw [List.foldl_cons]
        show decVal m = List.foldl _ (max (decVal acc) (decVal s)) t
        rw [hmax]
        exact hm4
    · have hlt : decVal s ≤ decVal acc := by
        have : ¬ decVal acc ≤ decVal s := fun hc => hle (hiff.mpr hc)
        omega
      have hmax : max (decVal acc) (decVal s) = decVal acc := max_eq_left hlt
      obtain ⟨m, hm1, hm2, hm3, hm4⟩ := ih acc n hlen hdig htlen htdig
      refine ⟨m, ?_, hm2, hm3, ?_⟩
      · rw [List.foldl_cons]
        simpa [hle] using hm1
      · rw [List.foldl_cons]
        show decVal m = List.foldl _ (max (decVal acc) (decVal s)) t
        rw [hmax]
        exact hm4

/-- C3, counterexample to the claim as stated: on the well-formed topology
whose physical ids are 9 and 10, the session-less socket count is 10, not
the numeric maximum plus one (11) — the pipeline's `sort` orders the id
lines as strings, and "9" sorts after "10". -/
theorem claim3_cex_multidigit :
    count_sockets [[9], [1, 0]] = 10
  ∧ maxIdVal [[9], [1, 0]] = 10
  ∧ count_sockets [[9], [1, 0]] ≠ maxIdVal [[9], [1, 0]] + 1 :=
  ⟨by decide, by decide, by decide⟩

/-- C3, amended: the session-less socket count query returns the sentinel 0
on an empty topology, and one plus the **lexicographically** greatest
physical id string; this equals one plus the numeric maximum whenever all
observed ids have the same number of decimal digits (so in particular on any
machine whose physical ids are all single-digit), but not in general for
ids of mixed digit counts. -/
theorem claim3_count_sockets :
    count_sockets [] = 0
  ∧ ∀ (ids : List (List Nat)) (n : Nat), ids ≠ [] →
      (∀ s ∈ ids, s.length = n) → (∀ s ∈ ids, ∀ d ∈ s, d < 10) →
      count_sockets ids = maxIdVal ids + 1 := by
  refine ⟨rfl, ?_⟩
  intro ids n hne hlen hdig
  cases ids with
  | nil => exact absurd rfl hne
  | cons h t =>
    have hhl : h.length = n := hlen h (by simp)
    have hhd : ∀ d ∈ h, d < 10 := hdig h (by simp)
    have htlen : ∀ u ∈ t, u.length = n := fun u hu => hlen u (by simp [hu])
    have htdig : ∀ u ∈ t, ∀ d ∈ u, d < 10 := fun u hu => hdig u (by simp [hu])
    obtain ⟨m, hm1, _, _, hm4⟩ := sortTail_max t h n hhl hhd htlen htdig
    have hsort : sortTail (h :: t) = some m := by
      simp only [sortTail, List.foldl_cons]
      exact hm1
    have hmax : maxIdVal (h :: t) = t.foldl (fun a s => max a (decVal s)) (decVal h) := by
      simp only [maxIdVal, List.foldl_cons]
      rw [Nat.zero_max]
    simp only [count_sockets, hsort]
    rw [hm4, hmax]

/-- Witness for C3 (amended) at a concrete input: single-digit ids 2 and 5
give socket count 6. -/
theorem claim3_count_sockets_witness :
    count_sockets [[2], [5]] = maxIdVal [[2], [5]] + 1 :=
  claim3_count_sockets.2 [[2], [5]] 1 (by decide) (by decide) (by decide)

theorem msrs_scan_append_none (sockets : Nat) :
    ∀ (pre : List (Option (Nat × Nat))) (f : Nat → Option Nat)
      (rest : List (Option (Nat × Nat))),
      msrs_scan sockets f (pre ++ none :: rest) = none := by
  intro pre
  induction pre with
  | nil => intro f rest; rfl
  | cons x p ih =>
    intro f rest
    cases x with
    | none => rfl
    | some sc =>
      obtain ⟨s, c⟩ := sc
      by_cases hs : sockets ≤ s <;> simp [msrs_scan, hs, ih]

theorem msrs_scan_append_oob (sockets s c : Nat) (hs : sockets ≤ s) :
    ∀ (pre : List (Option (Nat × Nat))) (f : Nat → Option Nat)
      (rest : List (Option (Nat × Nat))),
      msrs_scan sockets f (pre ++ some (s, c) :: rest) = none := by
  intro pre
  induction pre with
  | nil => intro f rest; simp [msrs_scan, hs]
  | cons x p ih =>
    intro f rest
    cases x with
    | none => rfl
    | some sc2 =>
      obtain ⟨s2, c2⟩ := sc2
      by_cases hs2 : sockets ≤ s2 <;> simp [msrs_scan, hs2, ih]

theorem msrs_scan_none_at (sockets : Nat) :
    ∀ (lines : List (Option (Nat × Nat))) (f g : Nat → Option Nat) (s : Nat),
      msrs_scan sockets f lines = some g → (∀ c, some (s, c) ∉ lines) →
      g s = f s := by
  intro lines
  induction lines with
  | nil =>
    intro f g s h _
    simp only [msrs_scan, Option.some_inj] at h
    rw [← h]
  | cons x rest ih =>
    intro f g s h hnot
    cases x with
    | none => simp [msrs_scan] at h
    | some sc =>
      obtain ⟨s2, c2⟩ := sc
      by_cases hs2 : sockets ≤ s2
      · simp [msrs_scan, hs2] at h
      · simp only [msrs_scan, hs2, ite_false, if_false] at h
        have hne : s2 ≠ s := by
          intro hEq
          exact hnot c2 (by simp [hEq])
        have := ih (coreid_update f s2 c2) g s h
          (fun c hc => hnot c (by simp [hc]))
        rw [this, coreid_update]
        simp [Ne.symm hne]

theorem foldMin_some_le : ∀ (cs : List Nat) (a m : Nat),
    foldMin (some a) cs = some m → m ≤ a ∧ ∀ c ∈ cs, m ≤ c := by
  intro cs
  induction cs with
  | nil =>
    intro a m h
    simp only [foldMin, List.foldl_nil, Option.some_inj] at h
    exact ⟨by omega, by simp⟩
  | cons c t ih =>
    intro a m h
    have hstep : foldMin (some a) (c :: t) = foldMin (some (if c < a then c else a)) t := rfl
    rw [hstep] at h
    obtain ⟨h1, h2⟩ := ih _ m h
    refine ⟨by split at h1 <;> omega, ?_⟩
    intro x hx
    rcases List.mem_cons.mp hx with rfl | hxt
    · split at h1 <;> omega
    · exact h2 x hxt

theorem foldMin_some_mem : ∀ (cs : List Nat) (a m : Nat),
    foldMin (some a) cs = some m → m = a ∨ m ∈ cs := by
  intro cs
  induction cs with
  | nil =>
    intro a m h
    simp only [foldMin, List.foldl_nil, Option.some_inj] at h
    exact Or.inl h.symm
  | cons c t ih =>
    intro a m h
    have hstep : foldMin (some a) (c :: t) = foldMin (some (if c < a then c else a)) t := rfl
    rw [hstep] at h
    rcases ih _ m h with hm | hm
    · split at hm
      · exact Or.inr (by simp [hm])
      · exact Or.inl hm
    · exact Or.inr (by simp [hm])

theorem foldMin_none_min : ∀ (cs : List Nat) (m : Nat),
    foldMin none cs = some m → m ∈ cs ∧ ∀ c ∈ cs, m ≤ c := by
  intro cs m h
  cases cs with
  | nil => simp [foldMin] at h
  | cons c t =>
    have hstep : foldMin none (c :: t) = foldMin (some c) t := rfl
    rw [hstep] at h
    obtain ⟨h1, h2⟩ := foldMin_some_le t c m h
    have hmem : m ∈ c :: t := by
      rcases foldMin_some_mem t c m h with rfl | hm
      · simp
      · simp [hm]
    refine ⟨hmem, fun x hx => ?_⟩
    rcases List.mem_cons.mp hx with rfl | hxt
    · exact h1
    · exact h2 x hxt

theorem msrs_scan_foldMin (sockets : Nat) :
    ∀ (lines : List (Option (Nat × Nat))) (f g : Nat → Option Nat),
      msrs_scan sockets f lines = some g →
      ∀ s, g s = foldMin (f s) (socketCores lines s) := by
  intro lines
  induction lines with
  | nil =>
    intro f g h s
    simp only [msrs_scan, Option.some_inj] at h
    rw [← h]
    rfl
  | cons x rest ih =>
    intro f g h s
    cases x with
    | none => simp [msrs_scan] at h
    | some sc =>
      obtain ⟨s2, c2⟩ := sc
      by_cases hs2 : sockets ≤ s2
      · simp [msrs_scan, hs2] at h
      · simp only [msrs_scan, hs2, ite_false, if_false] at h
        have hrec := ih (coreid_update f s2 c2) g h s
        by_cases hEq : s2 = s
        · subst hEq
          have hcores : socketCores (some (s2, c2) :: rest) s2
              = c2 :: socketCores rest s2 := by
            simp [socketCores]
          rw [hcores]
          have hupd : coreid_update f s2 c2 s2 = optMin (f s2) c2 := by
            simp [coreid_update, optMin]
          have hfold : foldMin (f s2) (c2 :: socketCores rest s2)
              = foldMin (optMin (f s2) c2) (socketCores rest s2) := rfl
          rw [hfold, ← hupd]
          exact hrec
        · have hcores : socketCores (some (s2, c2) :: rest) s
              = socketCores rest s := by
            simp [socketCores, hEq]
          rw [hcores]
          have hupd : coreid_update f s2 c2 s = f s := by
            simp [coreid_update, Ne.symm hEq]
          rw [← hupd]
          exact hrec

/-- C8: topology discovery maps each socket to the smallest core id observed
among that socket's logical CPUs, and fails with a discovery error whenever a
line parses to fewer fields than expected, an observed physical id is ≥ the
socket count, or some socket has no observed core id; on the topology with
physical ids {0,0,1,1} and core ids {0,4,1,5}, socket 0 maps to core 0 and
socket 1 maps to core 1. -/
theorem claim8_topology_discovery :
    (∀ (sockets : Nat) (pre rest : List (Option (Nat × Nat))),
        raplcap_open_msrs sockets (pre ++ none :: rest) = none)
  ∧ (∀ (sockets s c : Nat) (pre rest : List (Option (Nat × Nat))), sockets ≤ s →
        raplcap_open_msrs sockets (pre ++ some (s, c) :: rest) = none)
  ∧ (∀ (sockets : Nat) (lines : List (Option (Nat × Nat))) (s : Nat), s < sockets →
        (∀ c, some (s, c) ∉ lines) → raplcap_open_msrs sockets lines = none)
  ∧ (∀ (sockets : Nat) (lines : List (Option (Nat × Nat))) (g : Nat → Nat) (s : Nat),
        raplcap_open_msrs sockets lines = some g → s < sockets →
        g s ∈ socketCores lines s ∧ ∀ c ∈ socketCores lines s, g s ≤ c)
  ∧ (raplcap_open_msrs 2 [some (0, 0), some (0, 4), some (1, 1), some (1, 5)]).map
      (fun g => (g 0, g 1)) = some (0, 1) := by
  refine ⟨?_, ?_, ?_, ?_, ?_⟩
  · intro sockets pre rest
    simp [raplcap_open_msrs, msrs_scan_append_none]
  · intro sockets s c pre rest hs
    simp [raplcap_open_msrs, msrs_scan_append_oob sockets s c hs]
  · intro sockets lines s hs hnot
    cases hscan : msrs_scan sockets (fun _ => none) lines with
    | none => simp [raplcap_open_msrs, hscan]
    | some f =>
      have hfs : f s = none := msrs_scan_none_at sockets lines _ f s hscan hnot
      have hall : ((List.range sockets).all (fun i => (f i).isSome)) = false := by
        rw [List.all_eq_false]
        exact ⟨s, List.mem_range.mpr hs, by simp [hfs]⟩
      simp [raplcap_open_msrs, hscan, hall]
  · intro sockets lines g s hopen hs
    cases hscan : msrs_scan sockets (fun _ => none) lines with
    | none =>
      rw [raplcap_open_msrs, hscan] at hopen
      simp at hopen
    | some f =>
      have hopen2 : (if ((List.range sockets).all fun i => (f i).isSome) = true
          then some (fun i => (f i).getD 0) else none) = some g := by
        rw [raplcap_open_msrs, hscan] at hopen
        exact hopen
      by_cases hall : ((List.range sockets).all (fun i => (f i).isSome)) = true
      · rw [if_pos hall] at hopen2
        have hg : g = fun i => (f i).getD 0 := (Option.some_inj.mp hopen2).symm
        have hfold : f s = foldMin none (socketCores lines s) :=
          msrs_scan_foldMin sockets lines _ f hscan s
        have hsome : (f s).isSome := by
          have := List.all_eq_true.mp hall s (List.mem_range.mpr hs)
          simpa using this
        obtain ⟨m, hm⟩ : ∃ m, f s = some m := by
          cases hfs : f s with
          | none => rw [hfs] at hsome; simp at hsome
          | some m => exact ⟨m, rfl⟩
        rw [hfold] at hm
        have hmin := foldMin_none_min (socketCores lines s) m hm
        have hfsm : f s = some m := by rw [hfold]; exact hm
        have hgs : g s = m := by
          rw [hg]
          simp [hfsm]
        rw [hgs]
        exact hmin
      · rw [if_neg hall] at hopen2
        simp at hopen2
  · rfl

/-- Witness for C8 at a concrete input: a topology line with physical id 2
when only 2 sockets (0 and 1) were discovered is a discovery error. -/
theorem claim8_topology_discovery_witness :
    raplcap_open_msrs 2 ([] ++ some (2, 0) :: []) = none :=
  claim8_topology_discovery.2.1 2 2 0 [] [] (by decide)

/-- C5: when encoding a strictly positive time window, the new exponent
field reuses the fraction bits Z currently stored in the word: Class A
(long and short) stores `log2((4·seconds)/(time_unit·(Z+4)))` and Class B
stores `log2(seconds/F(Z))`, each truncated into the 5-bit exponent field,
and the fraction bits themselves are left unmodified.  The `1 ≤ …`
hypotheses restrict to the arguments on which the C `double`-to-`uint64_t`
conversion of `log2`'s result is defined (nonnegative results). -/
theorem claim5_time_encode : ∀ (m : Nat) (st : raplcap_msr) (s w : ℚ),
    0 < s →
    ((1 ≤ (4 * s) / (st.time_units * ((get_bits m 22 23 : ℚ) + 4)) →
      get_bits (set_pkg_platform m st (some ⟨s, w⟩) none) 17 21
        = clog2 ((4 * s) / (st.time_units * ((get_bits m 22 23 : ℚ) + 4))) % 2 ^ 5)
    ∧ get_bits (set_pkg_platform m st (some ⟨s, w⟩) none) 22 23 = get_bits m 22 23)
  ∧ ((1 ≤ (4 * s) / (st.time_units * ((get_bits m 54 55 : ℚ) + 4)) →
      get_bits (set_pkg_platform m st none (some ⟨s, w⟩)) 49 53
        = clog2 ((4 * s) / (st.time_units * ((get_bits m 54 55 : ℚ) + 4))) % 2 ^ 5)
    ∧ get_bits (set_pkg_platform m st none (some ⟨s, w⟩)) 54 55 = get_bits m 54 55)
  ∧ ((1 ≤ s / to_time_window_F (get_bits m 22 23) →
      get_bits (set_core_uncore_dram m st (some ⟨s, w⟩)) 17 21
        = clog2 (s / to_time_window_F (get_bits m 22 23)) % 2 ^ 5)
    ∧ get_bits (set_core_uncore_dram m st (some ⟨s, w⟩)) 22 23 = get_bits m 22 23) := by
  intro m st s w hs
  refine ⟨⟨?_, ?_⟩, ⟨?_, ?_⟩, ⟨?_, ?_⟩⟩
  · intro _
    by_cases hw : 0 < w <;>
      simp only [set_pkg_platform, hw, hs, ite_true, ite_false, if_true, if_false]
    · have hZa : get_bits (replace_bits m (ratTrunc (w / st.power_units)) 0 14) 22 23
          = get_bits m 22 23 :=
        get_bits_replace_bits_disjoint m _ 0 14 22 23 (by norm_num) (by norm_num)
          (by norm_num) (by norm_num) (Or.inr (by norm_num))
      rw [hZa, get_bits_replace_bits_same _ _ 17 21 (by norm_num) (by norm_num)]
    · rw [get_bits_replace_bits_same _ _ 17 21 (by norm_num) (by norm_num)]
  · by_cases hw : 0 < w <;>
      simp only [set_pkg_platform, hw, hs, ite_true, ite_false, if_true, if_false] <;>
      first
        | rw [get_bits_replace_bits_disjoint _ _ 17 21 22 23 (by norm_num) (by norm_num)
              (by norm_num) (by norm_num) (Or.inr (by norm_num)),
            get_bits_replace_bits_disjoint _ _ 0 14 22 23 (by norm_num) (by norm_num)
              (by norm_num) (by norm_num) (Or.inr (by norm_num))]
        | rw [get_bits_replace_bits_disjoint _ _ 17 21 22 23 (by norm_num) (by norm_num)
              (by norm_num) (by norm_num) (Or.inr (by norm_num))]
  · intro _
    by_cases hw : 0 < w <;>
      simp only [set_pkg_platform, hw, hs, ite_true, ite_false, if_true, if_false]
    · have hZa : get_bits (replace_bits m (ratTrunc (w / st.power_units)) 32 46) 54 55
          = get_bits m 54 55 :=
        get_bits_replace_bits_disjoint m _ 32 46 54 55 (by norm_num) (by norm_num)
          (by norm_num) (by norm_num) (Or.inr (by norm_num))
      rw [hZa, get_bits_replace_bits_same _ _ 49 53 (by norm_num) (by norm_num)]
    · rw [get_bits_replace_bits_same _ _ 49 53 (by norm_num) (by norm_num)]
  · by_cases hw : 0 < w <;>
      simp only [set_pkg_platform, hw, hs, ite_true, ite_false, if_true, if_false] <;>
      first
        | rw [get_bits_replace_bits_disjoint _ _ 49 53 54 55 (by norm_num) (by norm_num)
              (by norm_num) (by norm_num) (Or.inr (by norm_num)),
            get_bits_replace_bits_disjoint _ _ 32 46 54 55 (by norm_num) (by norm_num)
              (by norm_num) (by norm_num) (Or.inr (by norm_num))]
        | rw [get_bits_replace_bits_disjoint _ _ 49 53 54 55 (by norm_num) (by norm_num)
              (by norm_num) (by norm_num) (Or.inr (by norm_num))]
  · intro _
    by_cases hw : 0 < w <;>
      simp only [set_core_uncore_dram, hw, hs, ite_true, ite_false, if_true, if_false]
    · have hZa : get_bits (replace_bits m (ratTrunc (w / st.power_units)) 0 14) 22 23
          = get_bits m 22 23 :=
        get_bits_replace_bits_disjoint m _ 0 14 22 23 (by norm_num) (by norm_num)
          (by norm_num) (by norm_num) (Or.inr (by norm_num))
      rw [hZa, get_bits_replace_bits_same _ _ 17 21 (by norm_num) (by norm_num)]
    · rw [get_bits_replace_bits_same _ _ 17 21 (by norm_num) (by norm_num)]
  · by_cases hw : 0 < w <;>
      simp only [set_core_uncore_dram, hw, hs, ite_true, ite_false, if_true, if_false] <;>
      first
        | rw [get_bits_replace_bits_disjoint _ _ 17 21 22 23 (by norm_num) (by norm_num)
              (by norm_num) (by norm_num) (Or.inr (by norm_num)),
            get_bits_replace_bits_disjoint _ _ 0 14 22 23 (by norm_num) (by norm_num)
              (by norm_num) (by norm_num) (Or.inr (by norm_num))]
        | rw [get_bits_replace_bits_disjoint _ _ 17 21 22 23 (by norm_num) (by norm_num)
              (by norm_num) (by norm_num) (Or.inr (by norm_num))]

theorem claim5_witness_arg : 1 ≤ (2:ℚ) / to_time_window_F (get_bits 0 22 23) := by
  have h : get_bits 0 22 23 = 0 := by decide
  rw [h, to_time_window_F]
  norm_num

/-- Witness for C5 at a concrete input: encoding a 2-second window into the
all-zero Core register word with unit scales 1. -/
theorem claim5_time_encode_witness :
    get_bits (set_core_uncore_dram 0 ⟨1, 1⟩ (some ⟨2, 1⟩)) 17 21
      = clog2 ((2:ℚ) / to_time_window_F (get_bits 0 22 23)) % 2 ^ 5 :=
  ((claim5_time_encode 0 ⟨1, 1⟩ 2 1 two_pos).2.2).1 claim5_witness_arg

theorem ratTrunc_cast (q : ℚ) (hq : 0 ≤ q) : ((ratTrunc q : Nat) : ℚ) = ((⌊q⌋ : ℤ) : ℚ) := by
  have h := Int.toNat_of_nonneg (Int.floor_nonneg.mpr hq)
  rw [ratTrunc]
  exact_mod_cast congrArg (fun z : ℤ => (z : ℚ)) h

theorem watts_field_bounds (q : ℚ) (hq : 0 < q) (hlt : q < 2 ^ 15) :
    (ratTrunc q : ℚ) ≤ q ∧ q < (ratTrunc q : ℚ) + 1 ∧ ratTrunc q < 2 ^ 15 := by
  have hc := ratTrunc_cast q (le_of_lt hq)
  refine ⟨?_, ?_, ?_⟩
  · rw [hc]; exact Int.floor_le q
  · rw [hc]; exact Int.lt_floor_add_one q
  · have h1 : ⌊q⌋ < 32768 := Int.floor_lt.mpr (by push_cast; norm_num at hlt ⊢; exact hlt)
    have h2 : (2:Nat) ^ 15 = 32768 := by norm_num
    rw [ratTrunc, h2]
    omega

theorem clog2_bounds (q : ℚ) (h1 : 1 ≤ q) (h2 : q < 2 ^ 32) :
    clog2 q ≤ 31 ∧ (2:ℚ) ^ clog2 q ≤ q ∧ q < 2 ^ (clog2 q + 1) := by
  have hfl0 : (1:ℤ) ≤ ⌊q⌋ := Int.le_floor.mpr (by exact_mod_cast h1)
  have hub : ⌊q⌋ < 4294967296 := Int.floor_lt.mpr (by push_cast; norm_num at h2 ⊢; exact h2)
  have hn1 : 1 ≤ (⌊q⌋).toNat := by omega
  have hn2 : (⌊q⌋).toNat < 2 ^ 32 := by
    have h3 : (2:Nat) ^ 32 = 4294967296 := by norm_num
    omega
  have hcast : (((⌊q⌋).toNat : Nat) : ℚ) = ((⌊q⌋ : ℤ) : ℚ) := by
    exact_mod_cast congrArg (fun z : ℤ => (z : ℚ)) (Int.toNat_of_nonneg (by omega))
  have hle : (((⌊q⌋).toNat : Nat) : ℚ) ≤ q := by rw [hcast]; exact Int.floor_le q
  have hlt : q < (((⌊q⌋).toNat : Nat) : ℚ) + 1 := by rw [hcast]; exact Int.lt_floor_add_one q
  have hplog : 2 ^ Nat.log 2 (⌊q⌋).toNat ≤ (⌊q⌋).toNat :=
    Nat.pow_log_le_self 2 (by omega)
  have hplog2 : (⌊q⌋).toNat < 2 ^ (Nat.log 2 (⌊q⌋).toNat + 1) :=
    Nat.lt_pow_succ_log_self (by norm_num) _
  have h31 : Nat.log 2 (⌊q⌋).toNat ≤ 31 := by
    have := Nat.log_lt_of_lt_pow (show (⌊q⌋).toNat ≠ 0 by omega) hn2
    omega
  have hcl : clog2 q = Nat.log 2 (⌊q⌋).toNat := rfl
  refine ⟨by rw [hcl]; exact h31, ?_, ?_⟩
  · rw [hcl]
    calc (2:ℚ) ^ Nat.log 2 (⌊q⌋).toNat
        = ((2 ^ Nat.log 2 (⌊q⌋).toNat : Nat) : ℚ) := by push_cast; ring
      _ ≤ (((⌊q⌋).toNat : Nat) : ℚ) := by exact_mod_cast hplog
      _ ≤ q := hle
  · rw [hcl]
    calc q < (((⌊q⌋).toNat : Nat) : ℚ) + 1 := hlt
      _ ≤ ((2 ^ (Nat.log 2 (⌊q⌋).toNat + 1) : Nat) : ℚ) := by
          exact_mod_cast Nat.succ_le_of_lt hplog2
      _ = 2 ^ (Nat.log 2 (⌊q⌋).toNat + 1) := by push_cast; ring

theorem time_roundtrip (T step : ℚ) (hstep : 0 < step) (h1 : step ≤ T)
    (h2 : T < 2 ^ 32 * step) :
    (2:ℚ) ^ (clog2 (T / step) % 2 ^ 5) * step ≤ T
  ∧ T < 2 * ((2:ℚ) ^ (clog2 (T / step) % 2 ^ 5) * step) := by
  have harg1 : 1 ≤ T / step := (one_le_div hstep).mpr h1
  have harg2 : T / step < 2 ^ 32 := (div_lt_iff hstep).mpr h2
  obtain ⟨h31, hlo, hhi⟩ := clog2_bounds _ harg1 harg2
  have hmod : clog2 (T / step) % 2 ^ 5 = clog2 (T / step) :=
    Nat.mod_eq_of_lt (by
      have h5 : (2:Nat) ^ 5 = 32 := by norm_num
      omega)
  rw [hmod]
  constructor
  · have h := mul_le_mul_of_nonneg_right hlo (le_of_lt hstep)
    rwa [div_mul_cancel₀ _ (ne_of_gt hstep)] at h
  · have h := mul_lt_mul_of_pos_right hhi hstep
    rw [div_mul_cancel₀ _ (ne_of_gt hstep)] at h
    calc T < 2 ^ (clog2 (T / step) + 1) * step := h
      _ = 2 * (2 ^ (clog2 (T / step)) * step) := by ring

theorem roundtrip_core_uncore_dram (m : Nat) (pu tu W T : ℚ) (hpu : 0 < pu)
    (htu : 0 < tu) (hW : 0 < W) (hWlt : W < 2 ^ 15 * pu)
    (hT1 : to_time_window_F (get_bits m 22 23) ≤ T)
    (hT2 : T < 2 ^ 32 * to_time_window_F (get_bits m 22 23)) :
    W - pu < (get_core_uncore_dram (set_core_uncore_dram m ⟨pu, tu⟩ (some ⟨T, W⟩)) ⟨pu, tu⟩).watts
  ∧ (get_core_uncore_dram (set_core_uncore_dram m ⟨pu, tu⟩ (some ⟨T, W⟩)) ⟨pu, tu⟩).watts ≤ W
  ∧ (get_core_uncore_dram (set_core_uncore_dram m ⟨pu, tu⟩ (some ⟨T, W⟩)) ⟨pu, tu⟩).seconds ≤ T * tu
  ∧ T * tu < 2 * (get_core_uncore_dram (set_core_uncore_dram m ⟨pu, tu⟩ (some ⟨T, W⟩)) ⟨pu, tu⟩).seconds := by
  have hF : 0 < to_time_window_F (get_bits m 22 23) := by
    rw [to_time_window_F]; positivity
  have hT0 : 0 < T := lt_of_lt_of_le hF hT1
  have hdiv : 0 < W / pu := div_pos hW hpu
  have hdivlt : W / pu < 2 ^ 15 := (div_lt_iff hpu).mpr hWlt
  obtain ⟨hw1, hw2, hw3⟩ := watts_field_bounds (W / pu) hdiv hdivlt
  have hZa : get_bits (replace_bits m (ratTrunc (W / pu)) 0 14) 22 23 = get_bits m 22 23 :=
    get_bits_replace_bits_disjoint m _ 0 14 22 23 (by norm_num) (by norm_num)
      (by norm_num) (by norm_num) (Or.inr (by norm_num))
  have hset : set_core_uncore_dram m ⟨pu, tu⟩ (some ⟨T, W⟩)
      = replace_bits (replace_bits m (ratTrunc (W / pu)) 0 14)
          (clog2 (T / to_time_window_F (get_bits m 22 23))) 17 21 := by
    simp only [set_core_uncore_dram, hW, hT0, ite_true, if_true]
    rw [hZa]
  have h014 : get_bits (set_core_uncore_dram m ⟨pu, tu⟩ (some ⟨T, W⟩)) 0 14
      = ratTrunc (W / pu) := by
    rw [hset, get_bits_replace_bits_disjoint _ _ 17 21 0 14 (by norm_num) (by norm_num)
        (by norm_num) (by norm_num) (Or.inl (by norm_num)),
      get_bits_replace_bits_same m _ 0 14 (by norm_num) (by norm_num)]
    exact Nat.mod_eq_of_lt (by norm_num at hw3 ⊢; omega)
  have h1721 : get_bits (set_core_uncore_dram m ⟨pu, tu⟩ (some ⟨T, W⟩)) 17 21
      = clog2 (T / to_time_window_F (get_bits m 22 23)) % 2 ^ 5 := by
    rw [hset, get_bits_replace_bits_same _ _ 17 21 (by norm_num) (by norm_num)]
  have h2223 : get_bits (set_core_uncore_dram m ⟨pu, tu⟩ (some ⟨T, W⟩)) 22 23
      = get_bits m 22 23 := by
    rw [hset, get_bits_replace_bits_disjoint _ _ 17 21 22 23 (by norm_num) (by norm_num)
        (by norm_num) (by norm_num) (Or.inr (by norm_num))]
    exact hZa
  obtain ⟨ht1, ht2⟩ :=
    time_roundtrip T (to_time_window_F (get_bits m 22 23)) hF hT1 hT2
  simp only [get_core_uncore_dram, h014, h1721, h2223]
  refine ⟨?_, ?_, ?_, ?_⟩
  · have h := (div_lt_iff hpu).mp hw2
    nlinarith
  · have h := (le_div_iff hpu).mp hw1
    nlinarith
  · have h := mul_le_mul_of_nonneg_right ht1 (le_of_lt htu)
    calc 2 ^ (clog2 (T / to_time_window_F (get_bits m 22 23)) % 2 ^ 5)
          * to_time_window_F (get_bits m 22 23) * tu
        = 2 ^ (clog2 (T / to_time_window_F (get_bits m 22 23)) % 2 ^ 5)
          * to_time_window_F (get_bits m 22 23) * tu := rfl
      _ ≤ T * tu := h
  · have h := mul_lt_mul_of_pos_right ht2 htu
    calc T * tu < 2 * (2 ^ (clog2 (T / to_time_window_F (get_bits m 22 23)) % 2 ^ 5)
          * to_time_window_F (get_bits m 22 23)) * tu := h
      _ = 2 * (2 ^ (clog2 (T / to_time_window_F (get_bits m 22 23)) % 2 ^ 5)
          * to_time_window_F (get_bits m 22 23) * tu) := by ring

theorem roundtrip_pkg_platform (m : Nat) (pu tu W T : ℚ) (hpu : 0 < pu)
    (htu : 0 < tu) (hW : 0 < W) (hWlt : W < 2 ^ 15 * pu)
    (hT1 : tu * (1 + (get_bits m 22 23 : ℚ) / 4) ≤ T)
    (hT2 : T < 2 ^ 32 * (tu * (1 + (get_bits m 22 23 : ℚ) / 4))) :
    W - pu < (get_pkg_platform (set_pkg_platform m ⟨pu, tu⟩ (some ⟨T, W⟩) none) ⟨pu, tu⟩).1.watts
  ∧ (get_pkg_platform (set_pkg_platform m ⟨pu, tu⟩ (some ⟨T, W⟩) none) ⟨pu, tu⟩).1.watts ≤ W
  ∧ (get_pkg_platform (set_pkg_platform m ⟨pu, tu⟩ (some ⟨T, W⟩) none) ⟨pu, tu⟩).1.seconds ≤ T
  ∧ T < 2 * (get_pkg_platform (set_pkg_platform m ⟨pu, tu⟩ (some ⟨T, W⟩) none) ⟨pu, tu⟩).1.seconds := by
  have hstep : 0 < tu * (1 + (get_bits m 22 23 : ℚ) / 4) := by positivity
  have hT0 : 0 < T := lt_of_lt_of_le hstep hT1
  have hdiv : 0 < W / pu := div_pos hW hpu
  have hdivlt : W / pu < 2 ^ 15 := (div_lt_iff hpu).mpr hWlt
  obtain ⟨hw1, hw2, hw3⟩ := watts_field_bounds (W / pu) hdiv hdivlt
  have harg : (4 * T) / (tu * ((get_bits m 22 23 : ℚ) + 4))
      = T / (tu * (1 + (get_bits m 22 23 : ℚ) / 4)) := by
    have hz4 : ((get_bits m 22 23 : ℚ) + 4) ≠ 0 := by positivity
    field_simp
    ring
  have hZa : get_bits (replace_bits m (ratTrunc (W / pu)) 0 14) 22 23 = get_bits m 22 23 :=
    get_bits_replace_bits_disjoint m _ 0 14 22 23 (by norm_num) (by norm_num)
      (by norm_num) (by norm_num) (Or.inr (by norm_num))
  have hset : set_pkg_platform m ⟨pu, tu⟩ (some ⟨T, W⟩) none
      = replace_bits (replace_bits m (ratTrunc (W / pu)) 0 14)
          (clog2 (T / (tu * (1 + (get_bits m 22 23 : ℚ) / 4)))) 17 21 := by
    simp only [set_pkg_platform, hW, hT0, ite_true, if_true]
    rw [hZa, harg]
  have h014 : get_bits (set_pkg_platform m ⟨pu, tu⟩ (some ⟨T, W⟩) none) 0 14
      = ratTrunc (W / pu) := by
    rw [hset, get_bits_replace_bits_disjoint _ _ 17 21 0 14 (by norm_num) (by norm_num)
        (by norm_num) (by norm_num) (Or.inl (by norm_num)),
      get_bits_replace_bits_same m _ 0 14 (by norm_num) (by norm_num)]
    exact Nat.mod_eq_of_lt (by norm_num at hw3 ⊢; omega)
  have h1721 : get_bits (set_pkg_platform m ⟨pu, tu⟩ (some ⟨T, W⟩) none) 17 21
      = clog2 (T / (tu * (1 + (get_bits m 22 23 : ℚ) / 4))) % 2 ^ 5 := by
    rw [hset, get_bits_replace_bits_same _ _ 17 21 (by norm_num) (by norm_num)]
  have h2223 : get_bits (set_pkg_platform m ⟨pu, tu⟩ (some ⟨T, W⟩) none) 22 23
      = get_bits m 22 23 := by
    rw [hset, get_bits_replace_bits_disjoint _ _ 17 21 22 23 (by norm_num) (by norm_num)
        (by norm_num) (by norm_num) (Or.inr (by norm_num))]
    exact hZa
  obtain ⟨ht1, ht2⟩ :=
    time_roundtrip T (tu * (1 + (get_bits m 22 23 : ℚ) / 4)) hstep hT1 hT2
  simp only [get_pkg_platform, h014, h1721, h2223]
  refine ⟨?_, ?_, ?_, ?_⟩
  · have h := (div_lt_iff hpu).mp hw2
    nlinarith
  · have h := (le_div_iff hpu).mp hw1
    nlinarith
  · calc 2 ^ (clog2 (T / (tu * (1 + (get_bits m 22 23 : ℚ) / 4))) % 2 ^ 5)
          * (1 + (get_bits m 22 23 : ℚ) / 4) * tu
        = 2 ^ (clog2 (T / (tu * (1 + (get_bits m 22 23 : ℚ) / 4))) % 2 ^ 5)
          * (tu * (1 + (get_bits m 22 23 : ℚ) / 4)) := by ring
      _ ≤ T := ht1
  · calc T < 2 * (2 ^ (clog2 (T / (tu * (1 + (get_bits m 22 23 : ℚ) / 4))) % 2 ^ 5)
          * (tu * (1 + (get_bits m 22 23 : ℚ) / 4))) := ht2
      _ = 2 * (2 ^ (clog2 (T / (tu * (1 + (get_bits m 22 23 : ℚ) / 4))) % 2 ^ 5)
          * (1 + (get_bits m 22 23 : ℚ) / 4) * tu) := by ring

/-- C2, counterexample to the claim as stated: on the Core zone (Class B)
with power unit 1 W, time unit 1/1024 s, initial register word 0, and the
in-range request watts = 1, seconds = 1, the read-back window is 1/1024 s —
off from the requested 1 s by far more than the time-encoding resolution
(the next encodable value above 1/1024 s is only 2/1024 s, and the claim
needs T < 2·s'); the Class B encode divides only by F(Z) and not by the
time unit, so the stored exponent 0 decodes to F(Z)·time_unit.  The watts
component round-trips exactly, showing the input is otherwise well within
range. -/
theorem claim2_cex_class_b_seconds :
    (get_core_uncore_dram (set_core_uncore_dram 0 ⟨1, 1 / 1024⟩ (some ⟨1, 1⟩)) ⟨1, 1 / 1024⟩).watts = 1
  ∧ (get_core_uncore_dram (set_core_uncore_dram 0 ⟨1, 1 / 1024⟩ (some ⟨1, 1⟩)) ⟨1, 1 / 1024⟩).seconds
      = 1 / 1024
  ∧ ¬((1:ℚ) < 2 * (1 / 1024 : ℚ))
  ∧ ¬(|(1:ℚ) - 1 / 1024| ≤ 1 / 1024) := by
  have hA : ratTrunc ((1:ℚ) / 1) = 1 := by
    rw [ratTrunc]
    norm_num
  have ha : replace_bits 0 1 0 14 = 1 := by decide
  have hZ1 : get_bits 1 22 23 = 0 := by decide
  have hF0 : to_time_window_F 0 = 1 := by rw [to_time_window_F]; norm_num
  have hfloor : (⌊(1:ℚ) / 1⌋).toNat = 1 := by norm_num
  have hlog : clog2 ((1:ℚ) / 1) = 0 := by
    show Nat.log 2 (⌊(1:ℚ) / 1⌋).toNat = 0
    rw [hfloor]
    exact Nat.log_eq_of_pow_le_of_lt_pow (by norm_num) (by norm_num)
  have hrep2 : replace_bits 1 0 17 21 = 1 := by decide
  have hset : set_core_uncore_dram 0 ⟨1, 1 / 1024⟩ (some ⟨1, 1⟩) = 1 := by
    simp only [set_core_uncore_dram, show (0:ℚ) < 1 from one_pos, ite_true, if_true]
    simp only [hA, ha, hZ1, hF0, hlog, hrep2]
  rw [hset]
  refine ⟨?_, ?_, by norm_num, by rw [abs_of_nonneg (by norm_num)]; norm_num⟩
  · simp only [get_core_uncore_dram]
    rw [show get_bits 1 0 14 = 1 from by decide]
    norm_num
  · simp only [get_core_uncore_dram]
    rw [show get_bits 1 17 21 = 0 from by decide, hZ1, hF0]
    norm_num

/-- C2, amended: for every register word, positive units, and a watts request
with `0 < W < 2^15 · power_unit` (the capacity of the 15-bit power field):
after set_limits the read-back watts lies in `(W − power_unit, W]` for both
classes; the read-back window of a Class A zone (long-term limit, window
request within the encodable range `step ≤ T < 2^32·step` for
`step = time_unit·(1+Z/4)` at the stored fraction Z) satisfies
`s' ≤ T < 2·s'`; for a Class B zone (encodable range `F(Z) ≤ T < 2^32·F(Z)`)
the read-back window instead satisfies `s' ≤ T·time_unit < 2·s'` — it tracks
`T·time_unit`, not `T` (and thus matches the claim's bound only when the
time unit is 1), because the Class B time encode divides by `F(Z)` only,
omitting the time-unit division. -/
theorem claim2_set_get_roundtrip : ∀ (m : Nat) (pu tu W T : ℚ),
    0 < pu → 0 < tu → 0 < W → W < 2 ^ 15 * pu →
    ((tu * (1 + (get_bits m 22 23 : ℚ) / 4) ≤ T →
      T < 2 ^ 32 * (tu * (1 + (get_bits m 22 23 : ℚ) / 4)) →
      W - pu < (get_pkg_platform (set_pkg_platform m ⟨pu, tu⟩ (some ⟨T, W⟩) none) ⟨pu, tu⟩).1.watts
      ∧ (get_pkg_platform (set_pkg_platform m ⟨pu, tu⟩ (some ⟨T, W⟩) none) ⟨pu, tu⟩).1.watts ≤ W
      ∧ (get_pkg_platform (set_pkg_platform m ⟨pu, tu⟩ (some ⟨T, W⟩) none) ⟨pu, tu⟩).1.seconds ≤ T
      ∧ T < 2 * (get_pkg_platform (set_pkg_platform m ⟨pu, tu⟩ (some ⟨T, W⟩) none) ⟨pu, tu⟩).1.seconds)
  ∧ (to_time_window_F (get_bits m 22 23) ≤ T →
      T < 2 ^ 32 * to_time_window_F (get_bits m 22 23) →
      W - pu < (get_core_uncore_dram (set_core_uncore_dram m ⟨pu, tu⟩ (some ⟨T, W⟩)) ⟨pu, tu⟩).watts
      ∧ (get_core_uncore_dram (set_core_uncore_dram m ⟨pu, tu⟩ (some ⟨T, W⟩)) ⟨pu, tu⟩).watts ≤ W
      ∧ (get_core_uncore_dram (set_core_uncore_dram m ⟨pu, tu⟩ (some ⟨T, W⟩)) ⟨pu, tu⟩).seconds ≤ T * tu
      ∧ T * tu < 2 * (get_core_uncore_dram (set_core_uncore_dram m ⟨pu, tu⟩ (some ⟨T, W⟩)) ⟨pu, tu⟩).seconds)) := by
  intro m pu tu W T hpu htu hW hWlt
  exact ⟨fun hT1 hT2 => roundtrip_pkg_platform m pu tu W T hpu htu hW hWlt hT1 hT2,
    fun hT1 hT2 => roundtrip_core_uncore_dram m pu tu W T hpu htu hW hWlt hT1 hT2⟩

theorem claim2_witness_h1 : (1:ℚ) < 2 ^ 15 * 1 := by norm_num

theorem claim2_witness_h2 : to_time_window_F (get_bits 0 22 23) ≤ (2:ℚ) := by
  rw [show get_bits 0 22 23 = 0 from by decide, to_time_window_F]
  norm_num

theorem claim2_witness_h3 : (2:ℚ) < 2 ^ 32 * to_time_window_F (get_bits 0 22 23) := by
  rw [show get_bits 0 22 23 = 0 from by decide, to_time_window_F]
  norm_num

/-- Witness for C2 (amended) at a concrete input: Core zone, unit scales 1,
watts = 1 and seconds = 2 on the all-zero word. -/
theorem claim2_set_get_roundtrip_witness :
    (1:ℚ) - 1 < (get_core_uncore_dram (set_core_uncore_dram 0 ⟨1, 1⟩ (some ⟨2, 1⟩)) ⟨1, 1⟩).watts
  ∧ (get_core_uncore_dram (set_core_uncore_dram 0 ⟨1, 1⟩ (some ⟨2, 1⟩)) ⟨1, 1⟩).watts ≤ 1
  ∧ (get_core_uncore_dram (set_core_uncore_dram 0 ⟨1, 1⟩ (some ⟨2, 1⟩)) ⟨1, 1⟩).seconds ≤ 2 * 1
  ∧ 2 * 1 < 2 * (get_core_uncore_dram (set_core_uncore_dram 0 ⟨1, 1⟩ (some ⟨2, 1⟩)) ⟨1, 1⟩).seconds :=
  (claim2_set_get_roundtrip 0 1 1 1 2 one_pos one_pos one_pos claim2_witness_h1).2
    claim2_witness_h2 claim2_witness_h3

end Raplcap
